import Mathlib

/-!
# Verification of the core text algorithms of `spyderlib/widgets/sourcecode/base.py`

This file gives a shallow embedding of the two toolkit-independent algorithms of
the repository:

* the code-reindentation / augmentation transform
  (`TextEditBaseWidget.get_selection_as_executable_code`, lines 435-505), and
* the ANSI escape-code decoding path
  (`QtANSIEscapeCodeHandler`, lines 952-1015, and
  `ConsoleBaseWidget.append_text_to_shell`, lines 1136-1193),

together with theorems settling the specification claims about them.

Python strings are modelled as `List Char`; Python exceptions are modelled with
`Except PyErr`.  The base class `ANSIEscapeCodeHandler` lives in
`spyderlib/widgets/sourcecode/terminal.py`, which is not part of the sources;
its state update (`set_code` and the reset semantics) is modelled from the
specification and flagged as such in the corresponding doc comments.
-/

namespace Spyder

/-- Python strings, modelled as lists of characters. -/
abbrev PyStr := List Char

/-- Shorthand to write concrete Python strings. -/
def toL (s : String) : PyStr := s.toList

/-! ## Python string primitives -/

/-- The whitespace characters recognised by Python `str.strip` / `str.lstrip`
(for the ASCII range relevant here). -/
def isPySpace (ch : Char) : Bool :=
  ch = ' ' || ch = '\t' || ch = '\n' || ch = '\r' || ch = '\x0b' || ch = '\x0c'

/-- Python `s.lstrip()`. -/
def pyLstrip (s : PyStr) : PyStr := s.dropWhile isPySpace

/-- Python `s.rstrip()`. -/
def pyRstrip (s : PyStr) : PyStr := (s.reverse.dropWhile isPySpace).reverse

/-- Python `s.strip()`. -/
def pyStrip (s : PyStr) : PyStr := pyRstrip (pyLstrip s)

/-- `_indent = lambda line: len(line)-len(line.lstrip())` (source line 440). -/
def pyIndent (line : PyStr) : Nat := line.length - (pyLstrip line).length

/-- Recursion worker for `pySplit`.  The `fuel` argument is the loop variant
(every step consumes at least one character); it is initialised with the
length of the string, so the `0`/non-empty case is unreachable. -/
def pySplitAux (sep : PyStr) : Nat → PyStr → List PyStr
  | _, [] => [[]]
  | 0, s => [s]
  | fuel + 1, x :: xs =>
    if sep ≠ [] ∧ sep.isPrefixOf (x :: xs) then
      [] :: pySplitAux sep fuel (xs.drop (sep.length - 1))
    else
      match pySplitAux sep fuel xs with
      | [] => [[x]]
      | p :: ps => (x :: p) :: ps

/-- Python `s.split(sep)` for a non-empty separator `sep`
(for `sep = []` we return `[s]`; Python would raise, and no call site uses it). -/
def pySplit (sep s : PyStr) : List PyStr := pySplitAux sep s.length s

/-- Python `sep.join(parts)`. -/
def pyJoin (sep : PyStr) : List PyStr → PyStr
  | [] => []
  | [p] => p
  | p :: ps => p ++ sep ++ pyJoin sep ps

/-- Number of lines of a string, as counted by splitting at the separator. -/
def lineCount (sep : PyStr) (s : PyStr) : Nat := (pySplit sep s).length

/-- Index of the first occurrence of a character (Python `s.find(ch)`,
with `none` for the `-1` case). -/
def pyFindChar (ch : Char) : PyStr → Option Nat
  | [] => none
  | x :: xs => if x = ch then some 0 else (pyFindChar ch xs).map (· + 1)

/-- Value of a non-empty ASCII digit string. -/
def digitsVal (ds : List Char) : Nat :=
  ds.foldl (fun acc d => 10 * acc + (d.toNat - '0'.toNat)) 0

/-- Python `int(s)`: optional surrounding whitespace, optional sign, then a
non-empty run of digits; anything else raises `ValueError` (here: `none`). -/
def pyInt? (s : PyStr) : Option Int :=
  let t := pyStrip s
  match t with
  | '+' :: d => if d ≠ [] ∧ d.all Char.isDigit then some (digitsVal d) else none
  | '-' :: d => if d ≠ [] ∧ d.all Char.isDigit then some (-(digitsVal d : Int)) else none
  | d => if d ≠ [] ∧ d.all Char.isDigit then some (digitsVal d) else none

/-- Modelled Python exceptions. -/
inductive PyErr
  | assertionError
  | valueError
  | indexError
  | attributeError
deriving DecidableEq, Repr

deriving instance DecidableEq for Except

/-! ## The reindent transform (`get_selection_as_executable_code`, lines 435-505)

The widget-dependent inputs are abstracted as parameters: `text` is
`self.get_selected_text()` and `original_indent` is
`_indent(self.get_text_line(line_from))`, the indentation of the first
selected line in the full buffer. -/

/-- `varname.match(line).group()` for `varname = re.compile('[a-zA-Z0-9_]*')`
(source lines 480, 485): the maximal run of word characters at the start. -/
def varnameMatch (line : PyStr) : PyStr :=
  line.takeWhile (fun c => c.isAlphanum || c = '_')

/-- The compound-statement keywords that set the pending flag with no
allowed continuation (source line 490). -/
def kwMain : List PyStr := [toL "def", toL "for", toL "while", toL "with", toL "class"]

/-- `lines[n-1] += ls`: append `ls` to the last processed line.  The index
`n-1` always refers to the previous line because the flag starts out false,
so the `[]` case is unreachable in the pipeline. -/
def appendToLast (acc : List PyStr) (ls : PyStr) : List PyStr :=
  match acc.getLast? with
  | none => acc
  | some last => acc.dropLast ++ [last ++ ls]

/-- One step of the reserved-word scan (source lines 483-498).  The state is
`(processed lines, maybe, nextexcept)`; the Python loop mutates `lines[n-1]`,
which is the last element of the processed prefix. -/
def scanStep (ls : PyStr) (st : List PyStr × Bool × List PyStr) (line : PyStr) :
    List PyStr × Bool × List PyStr :=
  let (acc, maybe, nextexcept) := st
  if pyIndent line = 0 then
    let word := varnameMatch line
    let (acc', maybe') :=
      if maybe ∧ word ∉ nextexcept then (appendToLast acc ls, false) else (acc, maybe)
    if word ≠ [] then
      if word ∈ kwMain then (acc' ++ [line], true, [])
      else if word = toL "if" then (acc' ++ [line], true, [toL "elif", toL "else"])
      else if word = toL "try" then (acc' ++ [line], true, [toL "except", toL "finally"])
      else (acc' ++ [line], maybe', nextexcept)
    else (acc' ++ [line], maybe', nextexcept)
  else (acc ++ [line], maybe, nextexcept)

/-- The bottom-to-top common-indent scan (source lines 457-466): returns the
rewritten lines (blank lines replaced by `' ' * current_indent`), the computed
`min_indent` (initially `999`) and the running `current_indent`
(initially `0`). -/
def minScan : List PyStr → List PyStr × Nat × Nat
  | [] => ([], 999, 0)
  | line :: rest =>
    let (rest', m, cur) := minScan rest
    if pyStrip line ≠ [] then
      (line :: rest', min (pyIndent line) m, pyIndent line)
    else
      (List.replicate cur ' ' :: rest', m, cur)

/-- The leading blank/comment removal loop (source lines 470-475).  The loop
re-reads `lines[0]` after each `pop`, so exhausting the list raises
`IndexError`. -/
def stripLeading : List PyStr → Except PyErr (List PyStr)
  | [] => throw .indexError
  | l :: rest =>
    match pyLstrip l with
    | [] => stripLeading rest
    | c :: _ => if c = '#' then stripLeading rest else pure (l :: rest)

/-- The first-line padding (source lines 447-451): for a multi-line selection
the first line is padded with `' ' * (original_indent - _indent(lines[0]))`
(a negative repeat count yields the empty string). -/
def padText (text : PyStr) (original_indent : Nat) (ls : PyStr) : PyStr :=
  let lines := pySplit ls text
  if lines.length > 1 then
    List.replicate ((original_indent : Int) - (pyIndent (lines.headD []) : Int)).toNat ' '
      ++ text
  else text

/-- Lines of the padded text after the common-indent removal
(source lines 447-468). -/
def dedentLines (text : PyStr) (original_indent : Nat) (ls : PyStr) : List PyStr :=
  let scanned := minScan (pySplit ls (padText text original_indent ls))
  if scanned.2.1 ≠ 0 then scanned.1.map (·.drop scanned.2.1) else scanned.1

/-- Trailing-block termination (source lines 499-503): if the pending flag is
still set, extend a blank last line with `ls`, otherwise append `ls` as a new
line. -/
def finishScan (ls : PyStr) (st : List PyStr × Bool × List PyStr) : List PyStr :=
  let (lines, maybe, _) := st
  if maybe then
    if pyStrip (lines.getLastD []) = [] then appendToLast lines ls
    else lines ++ [ls]
  else lines

/-- `get_selection_as_executable_code` (source lines 435-505) as a pure
transform.  Returns `none` for the bare `return` on empty text, `ok (some s)`
for a produced string, and `error` for a raised exception. -/
def reindent (text : PyStr) (original_indent : Nat) (ls : PyStr) :
    Except PyErr (Option PyStr) :=
  if text = [] then .ok none
  else
    stripLeading (dedentLines text original_indent ls) >>= fun lines =>
    .ok (some (pyJoin ls (finishScan ls (lines.foldl (scanStep ls) ([], false, [])))))

/-! ## The ANSI escape-code handler

`QtANSIEscapeCodeHandler` (source lines 952-1015) is embedded faithfully; the
attribute state and `set_code` of its base class `ANSIEscapeCodeHandler`
(module `terminal.py`, not part of the sources) are modelled from the
specification. -/

/-- A `QTextCharFormat`, reduced to the attributes the handler manipulates
(colors are the strings fed to `QColor`; font family/size never change and are
omitted). -/
structure CharFormat where
  foreground : String
  background : String
  italic : Bool
  bold : Bool
  underline : Bool
deriving DecidableEq, Repr

/-- Decoder state: the attribute fields of `ANSIEscapeCodeHandler` (modelled
from the spec, `terminal.py` being absent) plus the `base_format` /
`current_format` fields added by `QtANSIEscapeCodeHandler.__init__`
(source lines 953-956). -/
structure AnsiHandler where
  intensity : Nat
  italic : Option Bool
  bold : Option Bool
  underline : Option Bool
  foreground_color : Option Nat
  background_color : Option Nat
  default_foreground_color : Nat
  default_background_color : Nat
  base_format : Option CharFormat
  current_format : Option CharFormat
deriving DecidableEq, Repr

/-- Modelled from the spec: the fixed color table of `ANSIEscapeCodeHandler`
(`terminal.py` is not in the sources): 8 base hues, each in a normal and a
bright intensity, indexed by `code - 30` (foreground) or `code - 40`
(background) and then by the intensity. -/
def ANSI_COLORS : List (List String) :=
  [["black", "brightblack"],
   ["red", "brightred"],
   ["green", "brightgreen"],
   ["yellow", "brightyellow"],
   ["blue", "brightblue"],
   ["magenta", "brightmagenta"],
   ["cyan", "brightcyan"],
   ["white", "brightwhite"]]

/-- A fresh `QtANSIEscapeCodeHandler`: attribute fields as modelled from the
spec (everything inherits, light-background defaults), `base_format` and
`current_format` set to `None` by `__init__` (source lines 953-956). -/
def freshHandler : AnsiHandler :=
  { intensity := 0
    italic := none
    bold := none
    underline := none
    foreground_color := none
    background_color := none
    default_foreground_color := 30
    default_background_color := 47
    base_format := none
    current_format := none }

/-- `set_light_background` (source lines 958-964). -/
def set_light_background (h : AnsiHandler) (state : Bool) : AnsiHandler :=
  if state then
    { h with default_foreground_color := 30, default_background_color := 47 }
  else
    { h with default_foreground_color := 37, default_background_color := 40 }

/-- `set_base_format` (source lines 966-967). -/
def set_base_format (h : AnsiHandler) (base_format : CharFormat) : AnsiHandler :=
  { h with base_format := some base_format }

/-- `get_format` (source lines 969-970). -/
def get_format (h : AnsiHandler) : Option CharFormat := h.current_format

/-- Python list indexing, with negative indices counting from the end and
`none` for `IndexError`. -/
def pyIndex {α : Type} (l : List α) (i : Int) : Option α :=
  if 0 ≤ i then l.get? i.toNat
  else if (-i).toNat ≤ l.length then l.get? (l.length - (-i).toNat) else none

/-- The foreground block of `set_style` (source lines 981-987): the explicit
color is looked up in the table, otherwise `self.base_format.foreground()`. -/
def resolveFg (h : AnsiHandler) : Except PyErr String :=
  match h.foreground_color with
  | none =>
    match h.base_format with
    | none => throw .attributeError       -- `self.base_format.foreground()` on None
    | some bf => pure bf.foreground
  | some code =>
    match pyIndex ANSI_COLORS ((code : Int) - 30) with
    | none => throw .indexError
    | some row =>
      match pyIndex row (h.intensity : Int) with
      | none => throw .indexError
      | some cstr => pure cstr

/-- The background block of `set_style` (source lines 988-994). -/
def resolveBg (h : AnsiHandler) : Except PyErr String :=
  match h.background_color with
  | none =>
    match h.base_format with
    | none => throw .attributeError
    | some bf => pure bf.background
  | some code =>
    match pyIndex ANSI_COLORS ((code : Int) - 40) with
    | none => throw .indexError
    | some row =>
      match pyIndex row (h.intensity : Int) with
      | none => throw .indexError
      | some cstr => pure cstr

/-- The italic block of `set_style` (source lines 997-1002). -/
def resolveItalic (h : AnsiHandler) : Except PyErr Bool :=
  match h.italic with
  | none =>
    match h.base_format with
    | none => throw .attributeError       -- `self.base_format.fontItalic()` on None
    | some bf => pure bf.italic
  | some b => pure b

/-- The bold block of `set_style` (source lines 1003-1008). -/
def resolveBold (h : AnsiHandler) : Except PyErr Bool :=
  match h.bold with
  | none =>
    match h.base_format with
    | none => throw .attributeError
    | some bf => pure bf.bold
  | some b => pure b

/-- The underline block of `set_style` (source lines 1009-1014). -/
def resolveUnderline (h : AnsiHandler) : Except PyErr Bool :=
  match h.underline with
  | none =>
    match h.base_format with
    | none => throw .attributeError
    | some bf => pure bf.underline
  | some b => pure b

/-- The resolution computed by the body of `set_style` (source lines
981-1015): explicit attributes override, unset ones fall back to
`base_format`.  All five tracked fields of the produced format are assigned,
so the result does not depend on the cached format. -/
def resolveStyle (h : AnsiHandler) : Except PyErr CharFormat :=
  resolveFg h >>= fun fg =>
  resolveBg h >>= fun bg =>
  resolveItalic h >>= fun it =>
  resolveBold h >>= fun bo =>
  resolveUnderline h >>= fun un =>
  pure { foreground := fg, background := bg, italic := it, bold := bo, underline := un }

/-- The guard of `set_style` (source lines 978-980): when no format is cached
yet, the assertion `self.base_format is not None` must hold (the seeding copy
`QTextCharFormat(self.base_format)` is immediately overwritten field by field
and needs no further modelling). -/
def styleAssert (h : AnsiHandler) : Except PyErr Unit :=
  match h.current_format with
  | none =>
    match h.base_format with
    | none => throw .assertionError
    | some _ => pure ()
  | some _ => pure ()

/-- `set_style` (source lines 972-1015): the assertion guard, then the
resolution is recomputed and cached. -/
def set_style (h : AnsiHandler) : Except PyErr AnsiHandler :=
  styleAssert h >>= fun _ =>
  resolveStyle h >>= fun f =>
  pure { h with current_format := some f }

/-- Modelled from the spec: `ANSIEscapeCodeHandler.reset` as invoked by code
`0` (`terminal.py` is not in the sources) — "full reset: clear foreground,
background, bold, italic, underline to inherit". -/
def ansiReset (h : AnsiHandler) : AnsiHandler :=
  { h with foreground_color := none, background_color := none,
           bold := none, italic := none, underline := none }

/-- Modelled from the spec: the attribute update of
`ANSIEscapeCodeHandler.set_code` (`terminal.py` is not in the sources).
Parameter semantics follow spec §4.1; any other numeric code is accepted and
ignored. -/
def applyAnsiCode (h : AnsiHandler) (code : Int) : AnsiHandler :=
  if code = 0 then ansiReset h
    else if code = 1 then { h with bold := some true }
    else if code = 3 then { h with italic := some true }
    else if code = 4 then { h with underline := some true }
    else if code = 22 then { h with bold := some false }
    else if code = 23 then { h with italic := some false }
    else if code = 24 then { h with underline := some false }
    else if 30 ≤ code ∧ code ≤ 37 then
      { h with foreground_color := some code.toNat, intensity := 0 }
    else if 90 ≤ code ∧ code ≤ 97 then
      { h with foreground_color := some (code - 60).toNat, intensity := 1 }
    else if 40 ≤ code ∧ code ≤ 47 then
      { h with background_color := some code.toNat, intensity := 0 }
    else if 100 ≤ code ∧ code ≤ 107 then
      { h with background_color := some (code - 60).toNat, intensity := 1 }
    else if code = 39 then { h with foreground_color := none }
    else if code = 49 then { h with background_color := none }
    else h

/-- Modelled from the spec: `ANSIEscapeCodeHandler.set_code` (`terminal.py`
is not in the sources): apply the parameter to the attribute state, then —
per spec §3, which keeps the cached resolved style current after each code
application — recompute it via the `set_style` of the Qt subclass (source
lines 972-1015). -/
def set_code (h : AnsiHandler) (code : Int) : Except PyErr AnsiHandler :=
  set_style (applyAnsiCode h code)

/-! ## The decode path (`ConsoleBaseWidget.append_text_to_shell`, lines 1136-1193)

`COLOR_PATTERN = re.compile('\x01?\x1b\[(.*?)m\x02?')` (source line 1051) is
embedded as an explicit matcher: the lazy `(.*?)` takes the characters up to
the first `'m'`, and `.` does not match a newline. -/

/-- The `(.*?)m\x02?` tail of `COLOR_PATTERN` at a fixed position: the lazy
group takes everything up to the first `'m'` (failing on a newline, which `.`
does not match), and a following `'\x02'` is consumed greedily.  Returns
`(group(1), text after the match)`. -/
def scanParams : PyStr → Option (PyStr × PyStr)
  | [] => none
  | x :: s =>
    if x = 'm' then
      some ([], if s.headD ' ' = '\x02' then s.tail else s)
    else if x = '\n' then none
    else (scanParams s).map (fun pr => (x :: pr.1, pr.2))

/-- Does `COLOR_PATTERN` match at the start of `s`?  The optional `\x01?` is
consumed only when `'\x1b['` follows (regex backtracking). -/
def matchHere (s : PyStr) : Option (PyStr × PyStr) :=
  match s with
  | '\x01' :: '\x1b' :: '[' :: t => scanParams t
  | '\x1b' :: '[' :: t => scanParams t
  | _ => none

/-- The leftmost `COLOR_PATTERN` match: returns
`(text before the match, group(1), text after the match)`. -/
def findColorMatch : PyStr → Option (PyStr × PyStr × PyStr)
  | [] => none
  | x :: t =>
    match matchHere (x :: t) with
    | some (params, rest) => some ([], params, rest)
    | none => (findColorMatch t).map (fun pr => (x :: pr.1, pr.2.1, pr.2.2))

theorem scanParams_length_lt {t p r : PyStr} (h : scanParams t = some (p, r)) :
    r.length < t.length := by
  induction t generalizing p r with
  | nil => simp [scanParams] at h
  | cons x s ih =>
    rw [scanParams] at h
    split at h
    · cases h
      split
      · cases s with
        | nil => simp
        | cons a b => simp only [List.tail_cons, List.length_cons]; omega
      · simp only [List.length_cons]
        omega
    · split at h
      · cases h
      · simp only [Option.map_eq_some'] at h
        obtain ⟨⟨p', r'⟩, hp, he⟩ := h
        cases he
        have := ih hp
        simp only [List.length_cons]
        omega

theorem matchHere_length_lt {s p r : PyStr} (h : matchHere s = some (p, r)) :
    r.length < s.length := by
  unfold matchHere at h
  split at h
  · have := scanParams_length_lt h
    simp only [List.length_cons]
    omega
  · have := scanParams_length_lt h
    simp only [List.length_cons]
    omega
  · cases h

theorem findColorMatch_length_lt {s pre p r : PyStr}
    (h : findColorMatch s = some (pre, p, r)) : r.length < s.length := by
  induction s generalizing pre p r with
  | nil => simp [findColorMatch] at h
  | cons x t ih =>
    rw [findColorMatch] at h
    split at h
    next params rest hm =>
      cases h
      exact matchHere_length_lt hm
    next hm =>
      simp only [Option.map_eq_some'] at h
      obtain ⟨⟨pre', p', r'⟩, hp, he⟩ := h
      cases he
      have := ih hp
      simp only [List.length_cons]
      omega

/-- A run of inserted text together with the character format passed to
`cursor.insertText` (the format may be a Python `None`). -/
structure Run where
  text : PyStr
  format : Option CharFormat
deriving DecidableEq, Repr

/-- The console-widget state visible to `append_text_to_shell`: the document
content (as the list of inserted runs), the four `ConsoleFontStyle` formats
and the ANSI handler.  Only `default_style.format` is ever reassigned. -/
structure ConsoleState where
  buffer : List Run
  default_format : Option CharFormat
  error_format : CharFormat
  traceback_format : CharFormat
  prompt_format : CharFormat
  handler : AnsiHandler
deriving DecidableEq, Repr

/-- `[int(_c) for _c in match.group(1).split(';')]` (source line 1179):
a non-numeric or empty entry raises `ValueError`. -/
def parseCodes (params : PyStr) : Except PyErr (List Int) :=
  (pySplit [';'] params).mapM fun p =>
    match pyInt? p with
    | some n => pure n
    | none => throw .valueError

/-- `for code in codes: self.ansi_handler.set_code(code)` (source lines
1179-1180). -/
def applyCodes (h : AnsiHandler) : List Int → Except PyErr AnsiHandler
  | [] => pure h
  | c :: cs => do applyCodes (← set_code h c) cs

/-- The `COLOR_PATTERN.finditer` loop of `append_text_to_shell`
(source lines 1174-1182): emit the text before each match with the current
default format, apply every code of the match, refresh the default format
from the handler, and finally emit the remaining text.  Returns the emitted
runs and the updated state. -/
def ansiLoopAux (fuel : Nat) (st : ConsoleState) (text : PyStr) :
    Except PyErr (List Run × ConsoleState) :=
  match findColorMatch text, fuel with
    | none, _ =>
      pure ([⟨text, st.default_format⟩],
        { st with buffer := st.buffer ++ [⟨text, st.default_format⟩] })
    | some _, 0 =>
      pure ([⟨text, st.default_format⟩],
        { st with buffer := st.buffer ++ [⟨text, st.default_format⟩] })
    | some (pre, params, rest), fuel + 1 => do
      let run : Run := ⟨pre, st.default_format⟩
      let codes ← parseCodes params
      let h ← applyCodes st.handler codes
      let st' : ConsoleState :=
        { st with buffer := st.buffer ++ [run],
                  default_format := get_format h,
                  handler := h }
      let (runs, st'') ← ansiLoopAux fuel st' rest
      pure (run :: runs, st'')

/-- The `COLOR_PATTERN.finditer` loop of `append_text_to_shell`
(source lines 1174-1182): emit the text before each match with the current
default format, apply every code of the match, refresh the default format
from the handler, and finally emit the remaining text.  Returns the emitted
runs and the updated state.  The fuel of the worker is the loop variant
(each match consumes at least three characters) and is initialised with the
text length, so its `0`/match case is unreachable. -/
def ansiLoop (st : ConsoleState) (text : PyStr) :
    Except PyErr (List Run × ConsoleState) :=
  ansiLoopAux text.length st text

theorem pyFindChar_lt_length {ch : Char} {s : PyStr} {i : Nat}
    (h : pyFindChar ch s = some i) : i < s.length := by
  induction s generalizing i with
  | nil => simp [pyFindChar] at h
  | cons x xs ih =>
    rw [pyFindChar] at h
    split at h
    · cases h
      simp
    · simp only [Option.map_eq_some'] at h
      obtain ⟨j, hj, he⟩ := h
      cases he
      have := ih hj
      simp only [List.length_cons]
      omega

/-- Recursion worker for `ffLoop`; the fuel is the loop variant (each
truncation consumes at least one character), initialised with the text
length, so the `0`/found case is unreachable. -/
def ffLoopAux (fuel : Nat) (s : PyStr) : PyStr × Bool :=
  match pyFindChar '\x0c' s, fuel with
  | none, _ => (s, false)
  | some _, 0 => (s, true)
  | some i, fuel + 1 => ((ffLoopAux fuel (s.drop (i + 1))).1, true)

/-- The form-feed loop of `append_text_to_shell` (source lines 1148-1153):
repeatedly truncate the text after the first `chr(12)` and clear the
document.  Returns the final text and whether `clear()` was called. -/
def ffLoop (s : PyStr) : PyStr × Bool := ffLoopAux s.length s

/-- The characters at which Python `str.splitlines` breaks lines. -/
def isLineBreak (ch : Char) : Bool :=
  ch = '\n' || ch = '\r' || ch = '\x0b' || ch = '\x0c' || ch = '\x1c' ||
  ch = '\x1d' || ch = '\x1e' || ch = '\x85' || ch = '\u2028' || ch = '\u2029'

/-- Python `s.splitlines(True)` (keepends). -/
def pySplitlinesKeep : PyStr → List PyStr
  | [] => []
  | '\r' :: '\n' :: t => ['\r', '\n'] :: pySplitlinesKeep t
  | x :: t =>
    if isLineBreak x then [x] :: pySplitlinesKeep t
    else
      match pySplitlinesKeep t with
      | [] => [[x]]
      | l :: rest => (x :: l) :: rest

/-- The error branch of `append_text_to_shell` (source lines 1154-1168):
lines starting with `'  File'` (but not `'  File "<'`) become a default-styled
two-space run plus a traceback-link run; all other lines are error-styled. -/
def errorRuns (st : ConsoleState) (text : PyStr) : List Run :=
  (pySplitlinesKeep text).flatMap fun line =>
    if (toL "  File").isPrefixOf line ∧ ¬ (toL "  File \"<").isPrefixOf line then
      [⟨toL "  ", st.default_format⟩, ⟨line.drop 2, some st.traceback_format⟩]
    else
      [⟨line, some st.error_format⟩]

/-- `append_text_to_shell` (source lines 1136-1193) on the modelled state:
the form-feed loop runs first, then one of the error / prompt / ANSI-decode
branches.  Returns the runs inserted by this call and the new state. -/
def append_text_to_shell (st : ConsoleState) (text : PyStr)
    (error : Bool) (prompt : Bool) : Except PyErr (List Run × ConsoleState) :=
  let (text', cleared) := ffLoop text
  let st := if cleared then { st with buffer := [] } else st
  if error then
    let runs := errorRuns st text'
    pure (runs, { st with buffer := st.buffer ++ runs })
  else if prompt then
    let runs : List Run := [⟨text', some st.prompt_format⟩]
    pure (runs, { st with buffer := st.buffer ++ runs })
  else
    ansiLoop st text'

/-! ## Spec-side definitions used to state the claims -/

/-- The suffix of a string strictly after its last form feed (the whole
string when no form feed occurs). -/
def afterLastFF (s : PyStr) : PyStr :=
  (s.reverse.takeWhile (· ≠ '\x0c')).reverse

/-- Following the spec's words: is `p` a `<n>(;<n>)*` parameter list, i.e. a
semicolon-separated list of (non-empty) integer numerals?  This is the
spec-side half of the refinement comparison for the wire grammar. -/
def specIntList (p : PyStr) : Bool :=
  (pySplit [';'] p).all fun d => d ≠ [] && d.all Char.isDigit

/-- Following the spec's words: does `s` consist exactly of one escape
sequence `ESC [ <n>(;<n>)* m` with an optional leading `\x01` and an optional
trailing `\x02`?  This full-string acceptor of the spec's wire grammar is the
spec-side definition to be compared with the source's `COLOR_PATTERN`. -/
def specSeq (s : PyStr) : Bool :=
  match s with
  | '\x01' :: '\x1b' :: '[' :: t => specSeqTail t
  | '\x1b' :: '[' :: t => specSeqTail t
  | _ => false
where
  /-- `<n>(;<n>)* m \x02?` followed by the end of the string; digits and
  semicolons never contain `'m'`, so the parameter part ends at the first
  `'m'`. -/
  specSeqTail (t : PyStr) : Bool :=
    let params := t.takeWhile (· ≠ 'm')
    match t.drop params.length with
    | 'm' :: u => specIntList params && (u = [] || u = ['\x02'])
    | _ => false

/-- Cache consistency for the handler: the cached `current_format`, when
present, equals the resolution recomputed from the current attribute state
and base format (i.e. `get_format` is not stale). -/
def consistent (h : AnsiHandler) : Bool :=
  match h.current_format with
  | none => true
  | some f => decide (resolveStyle h = .ok f)

/-- A public operation on the handler, as invoked by the widget. -/
inductive HOp
  | setCode (c : Int)
  | setLightBackground (b : Bool)
  | setBaseFormat (f : CharFormat)
deriving DecidableEq, Repr

/-- Apply one public handler operation. -/
def applyOp (h : AnsiHandler) : HOp → Except PyErr AnsiHandler
  | .setCode c => set_code h c
  | .setLightBackground b => pure (set_light_background h b)
  | .setBaseFormat f => pure (set_base_format h f)

/-- Handler states reachable from a fresh `QtANSIEscapeCodeHandler` through
the public operations (a failing `set_code` reaches no new state). -/
inductive Reaches : AnsiHandler → Prop
  | init : Reaches freshHandler
  | base {h} (f : CharFormat) : Reaches h → Reaches (set_base_format h f)
  | light {h} (b : Bool) : Reaches h → Reaches (set_light_background h b)
  | code {h h'} (c : Int) : Reaches h → set_code h c = .ok h' → Reaches h'

/-- A sample base format, used for concrete instantiations. -/
def sampleBase : CharFormat :=
  { foreground := "baseFg", background := "baseBg",
    italic := false, bold := false, underline := false }

/-- A second sample base format, differing from `sampleBase`. -/
def sampleBase2 : CharFormat :=
  { foreground := "baseFg2", background := "baseBg2",
    italic := false, bold := true, underline := false }

/-- A sample console state, used for concrete instantiations. -/
def sampleState : ConsoleState :=
  { buffer := []
    default_format := some sampleBase
    error_format := { sampleBase with foreground := "red" }
    traceback_format := { sampleBase with foreground := "blue", underline := true }
    prompt_format := { sampleBase with foreground := "green", bold := true }
    handler := set_base_format freshHandler sampleBase }

/-- "already-minimally-indented": the bottom-up common-indent scan of the
(padded) input computes `min_indent = 0`. -/
def minimallyIndented (text : PyStr) (original_indent : Nat) (ls : PyStr) : Bool :=
  (minScan (pySplit ls (padText text original_indent ls))).2.1 = 0

/-- "already-terminated": the reserved-word scan of the transform changes no
line and ends with the pending flag clear. -/
def selfTerminated (text : PyStr) (original_indent : Nat) (ls : PyStr) : Bool :=
  match stripLeading (dedentLines text original_indent ls) with
  | .error _ => false
  | .ok lines =>
    let st := lines.foldl (scanStep ls) ([], false, [])
    decide (st.1 = lines) && !st.2.1

/-- The first line of the input is neither blank nor comment-only. -/
def goodFirstLine (text : PyStr) (ls : PyStr) : Bool :=
  match pyLstrip ((pySplit ls text).headD []) with
  | [] => false
  | ch :: _ => ch ≠ '#'

/-- Reference splitter at a single character, used to reason about
`pySplit [c]`. -/
def splitChar (c : Char) : PyStr → List PyStr
  | [] => [[]]
  | x :: xs =>
    if x = c then [] :: splitChar c xs
    else
      match splitChar c xs with
      | [] => [[x]]
      | p :: ps => (x :: p) :: ps

/-- An escape sequence with optional soft markers, in the decomposed form used
to characterise `COLOR_PATTERN`: `\x01? ESC [ params m \x02?` followed by the
remaining text. -/
def wrapSeq (m1 m2 : Bool) (params rest : PyStr) : PyStr :=
  (if m1 then ['\x01'] else []) ++ '\x1b' :: '[' ::
    (params ++ 'm' :: (if m2 then ['\x02'] else []) ++ rest)

/-! ## General lemmas -/

theorem takeWhile_append_cons_of_neg {p : Char → Bool} {y : Char}
    (hy : ¬ p y) (xs ys : PyStr) :
    (xs ++ y :: ys).takeWhile p = xs.takeWhile p := by
  induction xs with
  | nil => simp [List.takeWhile_cons, hy]
  | cons x xs ih =>
    simp only [List.cons_append, List.takeWhile_cons]
    cases hp : p x with
    | true => simp [ih]
    | false => rfl

theorem afterLastFF_append_ff (a b : PyStr) :
    afterLastFF (a ++ '\x0c' :: b) = afterLastFF b := by
  unfold afterLastFF
  rw [List.reverse_append, List.reverse_cons, List.append_assoc,
    List.singleton_append, takeWhile_append_cons_of_neg (by decide)]

theorem afterLastFF_not_mem (s : PyStr) : '\x0c' ∉ afterLastFF s := by
  intro hmem
  rw [afterLastFF, List.mem_reverse] at hmem
  have := List.mem_takeWhile_imp hmem
  simp at this

theorem afterLastFF_of_not_mem {s : PyStr} (h : '\x0c' ∉ s) :
    afterLastFF s = s := by
  rw [afterLastFF, List.takeWhile_eq_self_iff.mpr, List.reverse_reverse]
  intro x hx
  rw [List.mem_reverse] at hx
  simp only [decide_eq_true_eq]
  intro he
  exact h (he ▸ hx)

theorem pyFindChar_none_iff {ch : Char} {s : PyStr} :
    pyFindChar ch s = none ↔ ch ∉ s := by
  induction s with
  | nil => simp [pyFindChar]
  | cons x xs ih =>
    rw [pyFindChar]
    by_cases hx : x = ch
    · simp [hx]
    · simp [hx, Option.map_eq_none', ih, Ne.symm hx]

theorem pyFindChar_drop {ch : Char} {s : PyStr} {i : Nat}
    (h : pyFindChar ch s = some i) : s.drop i = ch :: s.drop (i + 1) := by
  induction s generalizing i with
  | nil => simp [pyFindChar] at h
  | cons x xs ih =>
    rw [pyFindChar] at h
    split at h
    · cases h
      simp_all
    · simp only [Option.map_eq_some'] at h
      obtain ⟨j, hj, he⟩ := h
      cases he
      simpa using ih hj

theorem pyFindChar_mem {ch : Char} {s : PyStr} {i : Nat}
    (h : pyFindChar ch s = some i) : ch ∈ s := by
  by_contra hn
  rw [← pyFindChar_none_iff] at hn
  rw [h] at hn
  cases hn

theorem ffLoopAux_eq (fuel : Nat) : ∀ s : PyStr, s.length ≤ fuel →
    ffLoopAux fuel s = (afterLastFF s, decide ('\x0c' ∈ s)) := by
  induction fuel with
  | zero =>
    intro s hs
    have : s = [] := List.length_eq_zero.mp (Nat.le_zero.mp hs)
    subst this
    decide
  | succ fuel ih =>
    intro s hs
    rw [ffLoopAux.eq_def]
    cases hf : pyFindChar '\x0c' s with
    | none =>
      have hnot : '\x0c' ∉ s := pyFindChar_none_iff.mp hf
      show (s, false) = _
      simp [afterLastFF_of_not_mem hnot, hnot]
    | some i =>
      have hi := pyFindChar_lt_length hf
      have hdrop : (s.drop (i + 1)).length ≤ fuel := by
        simp only [List.length_drop]
        omega
      show ((ffLoopAux fuel (s.drop (i + 1))).1, true) = _
      rw [ih _ hdrop]
      have hdecomp : s = s.take i ++ '\x0c' :: s.drop (i + 1) := by
        conv_lhs => rw [← List.take_append_drop i s]
        rw [pyFindChar_drop hf]
      have hmem : '\x0c' ∈ s := pyFindChar_mem hf
      rw [decide_eq_true hmem]
      rw [show afterLastFF s = afterLastFF (s.drop (i + 1)) by
        conv_lhs => rw [hdecomp]
        exact afterLastFF_append_ff _ _]

theorem ffLoop_eq (s : PyStr) :
    ffLoop s = (afterLastFF s, decide ('\x0c' ∈ s)) :=
  ffLoopAux_eq s.length s le_rfl

theorem okBind {α β : Type} (a : α) (f : α → Except PyErr β) :
    (Except.ok a : Except PyErr α) >>= f = f a := rfl

theorem errorBind {α β : Type} (e : PyErr) (f : α → Except PyErr β) :
    (Except.error e : Except PyErr α) >>= f = Except.error e := rfl

theorem ansiLoopAux_none {fuel : Nat} {st : ConsoleState} {text : PyStr}
    (hm : findColorMatch text = none) :
    ansiLoopAux fuel st text = .ok ([⟨text, st.default_format⟩],
      { st with buffer := st.buffer ++ [⟨text, st.default_format⟩] }) := by
  rw [ansiLoopAux.eq_def, hm]
  rfl

theorem ansiLoopAux_zero_some {st : ConsoleState} {text : PyStr}
    {pre params rest : PyStr}
    (hm : findColorMatch text = some (pre, params, rest)) :
    ansiLoopAux 0 st text = .ok ([⟨text, st.default_format⟩],
      { st with buffer := st.buffer ++ [⟨text, st.default_format⟩] }) := by
  rw [ansiLoopAux.eq_def, hm]
  rfl

theorem ansiLoopAux_succ_some {fuel : Nat} {st : ConsoleState} {text : PyStr}
    {pre params rest : PyStr}
    (hm : findColorMatch text = some (pre, params, rest)) :
    ansiLoopAux (fuel + 1) st text =
      (parseCodes params >>= fun codes =>
        applyCodes st.handler codes >>= fun h =>
          ansiLoopAux fuel
            { st with buffer := st.buffer ++ [⟨pre, st.default_format⟩],
                      default_format := get_format h, handler := h } rest
            >>= fun rs => .ok (⟨pre, st.default_format⟩ :: rs.1, rs.2)) := by
  rw [ansiLoopAux.eq_def, hm]
  rfl

theorem resolveStyle_current (h : AnsiHandler) (v : Option CharFormat) :
    resolveStyle { h with current_format := v } = resolveStyle h := rfl

theorem set_light_background_current (h : AnsiHandler) (b : Bool) :
    (set_light_background h b).current_format = h.current_format := by
  unfold set_light_background
  cases b <;> rfl

theorem resolveStyle_light (h : AnsiHandler) (b : Bool) :
    resolveStyle (set_light_background h b) = resolveStyle h := by
  unfold set_light_background
  cases b <;> rfl

theorem set_style_ok {h h' : AnsiHandler} (hs : set_style h = .ok h') :
    ∃ f, resolveStyle h = .ok f ∧ h' = { h with current_format := some f } := by
  unfold set_style at hs
  cases ha : styleAssert h with
  | error e => rw [ha, errorBind] at hs; cases hs
  | ok u =>
    rw [ha, okBind] at hs
    cases hr : resolveStyle h with
    | error e => rw [hr, errorBind] at hs; cases hs
    | ok f =>
      rw [hr, okBind] at hs
      cases hs
      exact ⟨f, rfl, rfl⟩

theorem styleAssert_ok_of_base {h : AnsiHandler} {b : CharFormat}
    (hb : h.base_format = some b) : styleAssert h = .ok () := by
  unfold styleAssert
  cases h.current_format with
  | none => rw [hb]; rfl
  | some f0 => rfl

theorem set_code_consistent {h h' : AnsiHandler} {c : Int}
    (hs : set_code h c = .ok h') : consistent h' = true := by
  unfold set_code at hs
  obtain ⟨f, hf, rfl⟩ := set_style_ok hs
  unfold consistent
  show decide (resolveStyle _ = .ok f) = true
  rw [resolveStyle_current]
  exact decide_eq_true hf

theorem set_light_background_consistent {h : AnsiHandler} (b : Bool)
    (hc : consistent h = true) : consistent (set_light_background h b) = true := by
  cases hcc : h.current_format with
  | none =>
    unfold consistent
    rw [set_light_background_current, hcc]
  | some f =>
    unfold consistent
    rw [set_light_background_current, hcc]
    show decide (resolveStyle _ = .ok f) = true
    rw [resolveStyle_light]
    unfold consistent at hc
    rw [hcc] at hc
    exact hc

theorem applyCodes_consistent {h h' : AnsiHandler} {cs : List Int}
    (ha : applyCodes h cs = .ok h') : h' = h ∨ consistent h' = true := by
  induction cs generalizing h with
  | nil =>
    unfold applyCodes at ha
    cases ha
    exact Or.inl rfl
  | cons c cs ih =>
    unfold applyCodes at ha
    cases hsc : set_code h c with
    | error e =>
      rw [hsc, errorBind] at ha
      cases ha
    | ok h2 =>
      rw [hsc, okBind] at ha
      rcases ih ha with rfl | hcons
      · exact Or.inr (set_code_consistent hsc)
      · exact Or.inr hcons

theorem ansiLoopAux_consistent (fuel : Nat) :
    ∀ (st : ConsoleState) (text : PyStr) (runs : List Run) (st' : ConsoleState),
      consistent st.handler = true →
      ansiLoopAux fuel st text = .ok (runs, st') →
      consistent st'.handler = true := by
  induction fuel with
  | zero =>
    intro st text runs st' hc ha
    cases hm : findColorMatch text with
    | none =>
      rw [ansiLoopAux_none hm] at ha
      cases ha
      exact hc
    | some m =>
      obtain ⟨pre, params, rest⟩ := m
      rw [ansiLoopAux_zero_some hm] at ha
      cases ha
      exact hc
  | succ fuel ih =>
    intro st text runs st' hc ha
    cases hm : findColorMatch text with
    | none =>
      rw [ansiLoopAux_none hm] at ha
      cases ha
      exact hc
    | some m =>
      obtain ⟨pre, params, rest⟩ := m
      rw [ansiLoopAux_succ_some hm] at ha
      cases hp : parseCodes params with
      | error e => rw [hp, errorBind] at ha; cases ha
      | ok codes =>
        rw [hp, okBind] at ha
        cases hac : applyCodes st.handler codes with
        | error e => rw [hac, errorBind] at ha; cases ha
        | ok h2 =>
          rw [hac, okBind] at ha
          have hc2 : consistent h2 = true := by
            rcases applyCodes_consistent hac with rfl | hcons
            · exact hc
            · exact hcons
          cases hrec : ansiLoopAux fuel
              { st with buffer := st.buffer ++ [⟨pre, st.default_format⟩],
                        default_format := get_format h2, handler := h2 } rest with
          | error e => rw [hrec, errorBind] at ha; cases ha
          | ok pr =>
            obtain ⟨runs0, st0⟩ := pr
            rw [hrec, okBind] at ha
            cases ha
            exact ih _ _ _ _ hc2 hrec

/-- Attribute-range invariant maintained by the handler operations. -/
def wfRanges (h : AnsiHandler) : Prop :=
  (∀ k, h.foreground_color = some k → 30 ≤ k ∧ k ≤ 37) ∧
  (∀ k, h.background_color = some k → 40 ≤ k ∧ k ≤ 47) ∧
  h.intensity ≤ 1

theorem applyAnsiCode_wf {h : AnsiHandler} {c : Int} (hw : wfRanges h) :
    wfRanges (applyAnsiCode h c) := by
  obtain ⟨hwf, hwb, hwi⟩ := hw
  unfold applyAnsiCode
  by_cases h0 : c = 0
  · rw [if_pos h0]
    exact ⟨(fun k hk => Option.noConfusion hk), (fun k hk => Option.noConfusion hk), hwi⟩
  rw [if_neg h0]
  by_cases h1 : c = 1
  · rw [if_pos h1]
    exact ⟨(fun k hk => hwf k hk), (fun k hk => hwb k hk), hwi⟩
  rw [if_neg h1]
  by_cases h3 : c = 3
  · rw [if_pos h3]
    exact ⟨(fun k hk => hwf k hk), (fun k hk => hwb k hk), hwi⟩
  rw [if_neg h3]
  by_cases h4 : c = 4
  · rw [if_pos h4]
    exact ⟨(fun k hk => hwf k hk), (fun k hk => hwb k hk), hwi⟩
  rw [if_neg h4]
  by_cases h22 : c = 22
  · rw [if_pos h22]
    exact ⟨(fun k hk => hwf k hk), (fun k hk => hwb k hk), hwi⟩
  rw [if_neg h22]
  by_cases h23 : c = 23
  · rw [if_pos h23]
    exact ⟨(fun k hk => hwf k hk), (fun k hk => hwb k hk), hwi⟩
  rw [if_neg h23]
  by_cases h24 : c = 24
  · rw [if_pos h24]
    exact ⟨(fun k hk => hwf k hk), (fun k hk => hwb k hk), hwi⟩
  rw [if_neg h24]
  by_cases h30 : 30 ≤ c ∧ c ≤ 37
  · rw [if_pos h30]
    exact ⟨(fun k hk => by injection hk with e; omega), (fun k hk => hwb k hk), Nat.zero_le 1⟩
  rw [if_neg h30]
  by_cases h90 : 90 ≤ c ∧ c ≤ 97
  · rw [if_pos h90]
    exact ⟨(fun k hk => by injection hk with e; omega), (fun k hk => hwb k hk), Nat.le_refl 1⟩
  rw [if_neg h90]
  by_cases h40 : 40 ≤ c ∧ c ≤ 47
  · rw [if_pos h40]
    exact ⟨(fun k hk => hwf k hk), (fun k hk => by injection hk with e; omega), Nat.zero_le 1⟩
  rw [if_neg h40]
  by_cases h100 : 100 ≤ c ∧ c ≤ 107
  · rw [if_pos h100]
    exact ⟨(fun k hk => hwf k hk), (fun k hk => by injection hk with e; omega), Nat.le_refl 1⟩
  rw [if_neg h100]
  by_cases h39 : c = 39
  · rw [if_pos h39]
    exact ⟨(fun k hk => Option.noConfusion hk), (fun k hk => hwb k hk), hwi⟩
  rw [if_neg h39]
  by_cases h49 : c = 49
  · rw [if_pos h49]
    exact ⟨(fun k hk => hwf k hk), (fun k hk => Option.noConfusion hk), hwi⟩
  rw [if_neg h49]
  exact ⟨(fun k hk => hwf k hk), (fun k hk => hwb k hk), hwi⟩

theorem set_code_wf {h h' : AnsiHandler} {c : Int} (hw : wfRanges h)
    (hs : set_code h c = .ok h') : wfRanges h' := by
  unfold set_code at hs
  obtain ⟨f, hf, rfl⟩ := set_style_ok hs
  exact applyAnsiCode_wf hw

theorem reaches_wf {h : AnsiHandler} (hr : Reaches h) : wfRanges h := by
  induction hr with
  | init =>
    exact ⟨(fun k hk => by cases hk), (fun k hk => by cases hk), (by decide)⟩
  | base f _ ih => exact ih
  | light b _ ih => cases b <;> exact ih
  | code c _ hs ih => exact set_code_wf ih hs

theorem bindOkExists {α β : Type} {e : Except PyErr α} {k : α → Except PyErr β}
    (he : ∃ a, e = .ok a) (hk : ∀ a, ∃ b, k a = .ok b) :
    ∃ b, e >>= k = .ok b := by
  obtain ⟨a, ha⟩ := he
  rw [ha, okBind]
  exact hk a

theorem ansiLookup_fg {k i : Nat} (h30 : 30 ≤ k) (h37 : k ≤ 37) (hi : i ≤ 1) :
    ∃ row cstr, pyIndex ANSI_COLORS ((k : Int) - 30) = some row ∧
      pyIndex row (i : Int) = some cstr := by
  interval_cases k <;> interval_cases i <;> exact ⟨_, _, rfl, rfl⟩

theorem ansiLookup_bg {k i : Nat} (h40 : 40 ≤ k) (h47 : k ≤ 47) (hi : i ≤ 1) :
    ∃ row cstr, pyIndex ANSI_COLORS ((k : Int) - 40) = some row ∧
      pyIndex row (i : Int) = some cstr := by
  interval_cases k <;> interval_cases i <;> exact ⟨_, _, rfl, rfl⟩

theorem resolveStyle_ok_of_wf {h : AnsiHandler} {b : CharFormat}
    (hw : wfRanges h) (hb : h.base_format = some b) :
    ∃ f, resolveStyle h = .ok f := by
  obtain ⟨hwf, hwb, hwi⟩ := hw
  unfold resolveStyle
  apply bindOkExists
  · unfold resolveFg
    cases hfg : h.foreground_color with
    | none => simp only [hb]; exact ⟨_, rfl⟩
    | some k =>
      obtain ⟨h30, h37⟩ := hwf k hfg
      obtain ⟨row, cstr, hrow, hcstr⟩ := ansiLookup_fg h30 h37 hwi
      simp only [hrow, hcstr]
      exact ⟨_, rfl⟩
  intro fg
  apply bindOkExists
  · unfold resolveBg
    cases hbg : h.background_color with
    | none => simp only [hb]; exact ⟨_, rfl⟩
    | some k =>
      obtain ⟨h40, h47⟩ := hwb k hbg
      obtain ⟨row, cstr, hrow, hcstr⟩ := ansiLookup_bg h40 h47 hwi
      simp only [hrow, hcstr]
      exact ⟨_, rfl⟩
  intro bg
  apply bindOkExists
  · unfold resolveItalic
    cases hit : h.italic with
    | none => simp only [hb]; exact ⟨_, rfl⟩
    | some v => exact ⟨_, rfl⟩
  intro it
  apply bindOkExists
  · unfold resolveBold
    cases hbo : h.bold with
    | none => simp only [hb]; exact ⟨_, rfl⟩
    | some v => exact ⟨_, rfl⟩
  intro bo
  apply bindOkExists
  · unfold resolveUnderline
    cases hun : h.underline with
    | none => simp only [hb]; exact ⟨_, rfl⟩
    | some v => exact ⟨_, rfl⟩
  intro un
  exact ⟨_, rfl⟩

theorem set_style_ok_of_base {h : AnsiHandler} {b : CharFormat}
    (hw : wfRanges h) (hb : h.base_format = some b) :
    ∃ f, set_style h = .ok { h with current_format := some f } := by
  obtain ⟨f, hf⟩ := resolveStyle_ok_of_wf hw hb
  refine ⟨f, ?_⟩
  unfold set_style
  rw [styleAssert_ok_of_base hb, okBind, hf, okBind]
  rfl

theorem scanParams_sound {t p r : PyStr} (h : scanParams t = some (p, r)) :
    'm' ∉ p ∧ '\n' ∉ p ∧
      (t = p ++ 'm' :: '\x02' :: r ∨ (t = p ++ 'm' :: r ∧ r.head? ≠ some '\x02')) := by
  induction t generalizing p r with
  | nil => simp [scanParams] at h
  | cons x s ih =>
    rw [scanParams] at h
    split at h
    · cases h
      subst_vars
      refine ⟨List.not_mem_nil _, List.not_mem_nil _, ?_⟩
      cases s with
      | nil => right; simp
      | cons a b =>
        by_cases ha : a = '\x02'
        · subst ha; left; simp
        · right
          simp [List.headD, ha]
    · split at h
      · cases h
      · simp only [Option.map_eq_some'] at h
        obtain ⟨⟨p', r'⟩, hp, he⟩ := h
        cases he
        obtain ⟨hm, hn, hd⟩ := ih hp
        rename_i hxm hxn
        refine ⟨?_, ?_, ?_⟩
        · intro hmem
          rcases List.mem_cons.mp hmem with rfl | hmem
          · exact hxm rfl
          · exact hm hmem
        · intro hmem
          rcases List.mem_cons.mp hmem with rfl | hmem
          · exact hxn rfl
          · exact hn hmem
        · rcases hd with hd | ⟨hd, hh⟩
          · left; rw [List.cons_append, hd]
          · right; exact ⟨by rw [List.cons_append, hd], hh⟩

theorem scanParams_complete_marked {p : PyStr} (r : PyStr)
    (hm : 'm' ∉ p) (hn : '\n' ∉ p) :
    scanParams (p ++ 'm' :: '\x02' :: r) = some (p, r) := by
  induction p with
  | nil => rfl
  | cons c p ih =>
    have hcm : ¬ c = 'm' := fun hc => hm (hc ▸ List.mem_cons_self _ _)
    have hcn : ¬ c = '\n' := fun hc => hn (hc ▸ List.mem_cons_self _ _)
    rw [List.cons_append, scanParams, if_neg hcm, if_neg hcn,
      ih (fun hmem => hm (List.mem_cons_of_mem _ hmem))
        (fun hmem => hn (List.mem_cons_of_mem _ hmem))]
    rfl

theorem scanParams_complete_unmarked {p r : PyStr}
    (hm : 'm' ∉ p) (hn : '\n' ∉ p) (hr : r.head? ≠ some '\x02') :
    scanParams (p ++ 'm' :: r) = some (p, r) := by
  induction p with
  | nil =>
    rw [List.nil_append, scanParams, if_pos rfl]
    have : r.headD ' ' ≠ '\x02' := by
      cases r with
      | nil => simp
      | cons a b =>
        simp only [List.head?_cons, ne_eq, Option.some.injEq] at hr
        simpa using hr
    rw [if_neg this]
  | cons c p ih =>
    have hcm : ¬ c = 'm' := fun hc => hm (hc ▸ List.mem_cons_self _ _)
    have hcn : ¬ c = '\n' := fun hc => hn (hc ▸ List.mem_cons_self _ _)
    rw [List.cons_append, scanParams, if_neg hcm, if_neg hcn,
      ih (fun hmem => hm (List.mem_cons_of_mem _ hmem))
        (fun hmem => hn (List.mem_cons_of_mem _ hmem))]
    rfl

theorem matchHere_marked (t : PyStr) :
    matchHere ('\x01' :: '\x1b' :: '[' :: t) = scanParams t := rfl

theorem matchHere_unmarked (t : PyStr) :
    matchHere ('\x1b' :: '[' :: t) = scanParams t := rfl

theorem matchHere_sound {s params rest : PyStr}
    (h : matchHere s = some (params, rest)) :
    'm' ∉ params ∧ '\n' ∉ params ∧
      ∃ m1 m2, s = wrapSeq m1 m2 params rest ∧
        (m2 = false → rest.head? ≠ some '\x02') := by
  unfold matchHere at h
  split at h
  · obtain ⟨hm, hn, hd⟩ := scanParams_sound h
    refine ⟨hm, hn, ?_⟩
    rcases hd with hd | ⟨hd, hh⟩
    · exact ⟨true, true, by simp [wrapSeq, hd], by simp⟩
    · exact ⟨true, false, by simp [wrapSeq, hd], fun _ => hh⟩
  · obtain ⟨hm, hn, hd⟩ := scanParams_sound h
    refine ⟨hm, hn, ?_⟩
    rcases hd with hd | ⟨hd, hh⟩
    · exact ⟨false, true, by simp [wrapSeq, hd], by simp⟩
    · exact ⟨false, false, by simp [wrapSeq, hd], fun _ => hh⟩
  · cases h

theorem matchHere_complete {params rest : PyStr} (m1 m2 : Bool)
    (hm : 'm' ∉ params) (hn : '\n' ∉ params)
    (h2 : m2 = false → rest.head? ≠ some '\x02') :
    matchHere (wrapSeq m1 m2 params rest) = some (params, rest) := by
  cases m1 <;> cases m2 <;>
    simp only [wrapSeq, if_true, if_false, Bool.false_eq_true, Bool.true_eq_false,
      List.append_assoc, List.nil_append, List.singleton_append, List.cons_append]
  · rw [matchHere_unmarked, scanParams_complete_unmarked hm hn (h2 rfl)]
  · rw [matchHere_unmarked, scanParams_complete_marked rest hm hn]
  · rw [matchHere_marked, scanParams_complete_unmarked hm hn (h2 rfl)]
  · rw [matchHere_marked, scanParams_complete_marked rest hm hn]

theorem findColorMatch_nil : findColorMatch [] = none := rfl

theorem ansiLoopAux_fuel_irrel (n : Nat) :
    ∀ (f1 f2 : Nat) (st : ConsoleState) (s : PyStr),
      s.length ≤ n → s.length ≤ f1 → s.length ≤ f2 →
      ansiLoopAux f1 st s = ansiLoopAux f2 st s := by
  induction n with
  | zero =>
    intro f1 f2 st s hn h1 h2
    have hs : s = [] := List.length_eq_zero.mp (Nat.le_zero.mp hn)
    subst hs
    rw [ansiLoopAux_none findColorMatch_nil, ansiLoopAux_none findColorMatch_nil]
  | succ n ih =>
    intro f1 f2 st s hn h1 h2
    cases hm : findColorMatch s with
    | none => rw [ansiLoopAux_none hm, ansiLoopAux_none hm]
    | some m =>
      obtain ⟨pre, params, rest⟩ := m
      have hrest := findColorMatch_length_lt hm
      have hpos : 0 < s.length := by
        cases s with
        | nil => rw [findColorMatch_nil] at hm; cases hm
        | cons a b => simp
      cases f1 with
      | zero => omega
      | succ g1 =>
        cases f2 with
        | zero => omega
        | succ g2 =>
          rw [ansiLoopAux_succ_some hm, ansiLoopAux_succ_some hm]
          have hrec : ∀ st' : ConsoleState,
              ansiLoopAux g1 st' rest = ansiLoopAux g2 st' rest :=
            fun st' => ih g1 g2 st' rest (by omega) (by omega) (by omega)
          simp only [hrec]

theorem ansiLoop_marker_invariant (st : ConsoleState) (m1 m2 : Bool)
    {params rest : PyStr} (hm : 'm' ∉ params) (hn : '\n' ∉ params)
    (hr : rest.head? ≠ some '\x02') :
    ansiLoop st (wrapSeq m1 m2 params rest) = ansiLoop st (wrapSeq false false params rest) := by
  have hfind : ∀ m1' m2' : Bool, findColorMatch (wrapSeq m1' m2' params rest)
      = some ([], params, rest) := by
    intro m1' m2'
    have hmh := @matchHere_complete params rest m1' m2' hm hn
      (fun _ => hr)
    cases hw : wrapSeq m1' m2' params rest with
    | nil =>
      rw [hw] at hmh
      cases hmh
    | cons x t =>
      rw [hw] at hmh
      rw [findColorMatch, hmh]
  have hlen : ∀ m1' m2' : Bool, rest.length < (wrapSeq m1' m2' params rest).length := by
    intro m1' m2'
    exact findColorMatch_length_lt (hfind m1' m2')
  unfold ansiLoop
  cases hl1 : (wrapSeq m1 m2 params rest).length with
  | zero => have := hlen m1 m2; omega
  | succ g1 =>
    cases hl2 : (wrapSeq false false params rest).length with
    | zero => have := hlen false false; omega
    | succ g2 =>
      rw [ansiLoopAux_succ_some (hfind m1 m2), ansiLoopAux_succ_some (hfind false false)]
      have h1 := hlen m1 m2
      have h2 := hlen false false
      have hrec : ∀ st' : ConsoleState,
          ansiLoopAux g1 st' rest = ansiLoopAux g2 st' rest :=
        fun st' => ansiLoopAux_fuel_irrel rest.length g1 g2 st' rest le_rfl
          (by omega) (by omega)
      simp only [hrec]

/-- The pair produced by a sample decode call, used for concrete
instantiations. -/
def sampleDecodeResult : List Run × ConsoleState :=
  (ansiLoop sampleState (toL "\x1b[31mX")).toOption.getD ([], sampleState)

/-! ## Claims -/

/-- **C1** (code bug): decoding is claimed to be total, with malformed or
absent parameter entries swallowed as `Unknown`; in fact the decode path of
`append_text_to_shell` (error and prompt false) evaluates `int(_c)` on every
raw parameter entry, so the escape sequence `"\x1b[m"` — whose single
parameter entry is empty — raises `ValueError` for every console state. -/
theorem C1_malformed_params_raise (st : ConsoleState) :
    append_text_to_shell st (toL "\x1b[m") false false = .error .valueError := by
  rfl

/-- **C2** (code bug): the comment/blank-stripping scan of
`get_selection_as_executable_code` is claimed to guard its index accesses and
return an empty result on blank/comment-only input; in fact the loop re-reads
`lines[0]` unguarded after each `pop`, so a selection consisting of the single
comment line `"# comment"` raises `IndexError` instead of yielding an empty
result. -/
theorem C2_comment_only_raises :
    reindent (toL "# comment") 0 (toL "\n") = .error .indexError := by
  decide

/-- **C3**: in the keyword scan, whenever the pending flag is set and the
current zero-indentation line's leading word is not in the allowed
continuation set, the step behaves exactly like the step on the state with an
extra line separator appended to the previous line and the flag cleared; in
particular `reindent("if True:\n    pass\nx = 1\n", 0, "\n")` emits an extra
separator between the `pass` line and the `x = 1` line. -/
theorem C3_pending_terminator_insert :
    (∀ (ls : PyStr) (acc ne : List PyStr) (line : PyStr),
        pyIndent line = 0 → varnameMatch line ∉ ne →
        scanStep ls (acc, true, ne) line
          = scanStep ls (appendToLast acc ls, false, ne) line)
    ∧ reindent (toL "if True:\n    pass\nx = 1\n") 0 (toL "\n")
        = .ok (some (toL "if True:\n    pass\n\nx = 1\n")) := by
  constructor
  · intro ls acc ne line h0 hne
    simp [scanStep, h0, hne]
  · decide

/-- Witness for C3: the scan-step property at the concrete state reached
before the `x = 1` line of the claim's example, plus the example itself. -/
theorem C3_pending_terminator_insert_witness :
    scanStep (toL "\n") ([toL "if True:", toL "    pass"], true,
        [toL "elif", toL "else"]) (toL "x = 1")
      = scanStep (toL "\n")
          (appendToLast [toL "if True:", toL "    pass"] (toL "\n"), false,
            [toL "elif", toL "else"]) (toL "x = 1")
    ∧ reindent (toL "if True:\n    pass\nx = 1\n") 0 (toL "\n")
        = .ok (some (toL "if True:\n    pass\n\nx = 1\n")) :=
  ⟨C3_pending_terminator_insert.1 _ _ _ _ (by decide) (by decide),
   C3_pending_terminator_insert.2⟩

/-- **C6**: on any text in which the color pattern has no match, the decode
loop emits exactly one run, equal to the whole input and styled with the
current default style, and only appends that run to the buffer. -/
theorem C6_no_escape_single_run (st : ConsoleState) (text : PyStr)
    (h : findColorMatch text = none) :
    ansiLoop st text = .ok ([⟨text, st.default_format⟩],
      { st with buffer := st.buffer ++ [⟨text, st.default_format⟩] }) := by
  unfold ansiLoop ansiLoopAux
  rw [h]
  rfl

/-- Witness for C6 at the escape-free text `"hello"` and the sample state. -/
theorem C6_no_escape_single_run_witness :
    findColorMatch (toL "hello") = none ∧
    ansiLoop sampleState (toL "hello")
      = .ok ([⟨toL "hello", sampleState.default_format⟩],
        { sampleState with
            buffer := sampleState.buffer ++ [⟨toL "hello", sampleState.default_format⟩] }) :=
  ⟨by decide, C6_no_escape_single_run sampleState (toL "hello") (by decide)⟩

/-- Counterexample to **C4** as stated: for the non-empty input
`"# c\nx = 1"` the transform succeeds but produces fewer lines than the
input (the leading comment line is dropped), so the line count does
decrease. -/
theorem C4_line_count_counterexample :
    toL "# c\nx = 1" ≠ [] ∧
    reindent (toL "# c\nx = 1") 0 (toL "\n") = .ok (some (toL "x = 1")) ∧
    ¬ lineCount (toL "\n") (toL "x = 1") ≥ lineCount (toL "\n") (toL "# c\nx = 1") := by
  decide

/-- Counterexample to **C5** as stated: the input `"# c\n    a = 1\n"` is
already minimally indented (the computed common indent is 0) and already
terminated (the keyword scan changes nothing), yet the transform is not
idempotent on it: the first pass drops the comment line and returns
`"    a = 1\n"`, and the second pass dedents that by four columns. -/
theorem C5_idempotence_counterexample :
    minimallyIndented (toL "# c\n    a = 1\n") 0 (toL "\n") = true ∧
    selfTerminated (toL "# c\n    a = 1\n") 0 (toL "\n") = true ∧
    reindent (toL "# c\n    a = 1\n") 0 (toL "\n") = .ok (some (toL "    a = 1\n")) ∧
    reindent (toL "    a = 1\n") 0 (toL "\n") ≠ .ok (some (toL "    a = 1\n")) := by
  decide

/-- **C8** amended: the recognizer matches exactly the sequences
`\x01? ESC [ P m \x02?` where `P` is any (possibly empty) run of characters
containing neither `'m'` nor a newline — a strict superset of the spec's
integer-list grammar (soundness and completeness below); and the soft
markers, when present, are stripped with the sequence and have no effect on
the emitted runs or the decoder state (the decode loop gives identical
results with and without them). -/
theorem C8_recognizer_amended :
    (∀ s params rest : PyStr, matchHere s = some (params, rest) →
        'm' ∉ params ∧ '\n' ∉ params ∧
        ∃ m1 m2, s = wrapSeq m1 m2 params rest ∧
          (m2 = false → rest.head? ≠ some '\x02'))
    ∧ (∀ (m1 m2 : Bool) (params rest : PyStr), 'm' ∉ params → '\n' ∉ params →
        (m2 = false → rest.head? ≠ some '\x02') →
        matchHere (wrapSeq m1 m2 params rest) = some (params, rest))
    ∧ (∀ (st : ConsoleState) (m1 m2 : Bool) (params rest : PyStr),
        'm' ∉ params → '\n' ∉ params → rest.head? ≠ some '\x02' →
        ansiLoop st (wrapSeq m1 m2 params rest)
          = ansiLoop st (wrapSeq false false params rest)) :=
  ⟨fun _ _ _ h => matchHere_sound h,
   fun m1 m2 _ _ hm hn h2 => matchHere_complete m1 m2 hm hn h2,
   fun st m1 m2 _ _ hm hn hr => ansiLoop_marker_invariant st m1 m2 hm hn hr⟩

/-- Witness for the amended C8 at the concrete sequence
`"\x01\x1b[31m\x02X"`. -/
theorem C8_recognizer_amended_witness :
    ('m' ∉ toL "31" ∧ '\n' ∉ toL "31" ∧
      ∃ m1 m2, toL "\x01\x1b[31m\x02X" = wrapSeq m1 m2 (toL "31") (toL "X") ∧
        (m2 = false → (toL "X").head? ≠ some '\x02'))
    ∧ matchHere (wrapSeq true true (toL "31") (toL "X")) = some (toL "31", toL "X")
    ∧ ansiLoop sampleState (wrapSeq true true (toL "31") (toL "X"))
        = ansiLoop sampleState (wrapSeq false false (toL "31") (toL "X")) :=
  ⟨C8_recognizer_amended.1 (toL "\x01\x1b[31m\x02X") (toL "31") (toL "X") (by decide),
   C8_recognizer_amended.2.1 true true (toL "31") (toL "X") (by decide) (by decide)
     (by decide),
   C8_recognizer_amended.2.2 sampleState true true (toL "31") (toL "X") (by decide)
     (by decide) (by decide)⟩

/-- **C9**: if the input text contains the form-feed character `chr(12)`,
`append_text_to_shell` behaves exactly like the call on the state with a
cleared buffer and the substring strictly after the last form feed: the
buffer is cleared first and everything up to and including the last form
feed is discarded, never emitted as a run. -/
theorem C9_formfeed_clears (st : ConsoleState) (text : PyStr) (e p : Bool)
    (h : '\x0c' ∈ text) :
    append_text_to_shell st text e p
      = append_text_to_shell { st with buffer := [] } (afterLastFF text) e p := by
  unfold append_text_to_shell
  rw [ffLoop_eq, ffLoop_eq,
    afterLastFF_of_not_mem (afterLastFF_not_mem text),
    decide_eq_true h, decide_eq_false (afterLastFF_not_mem text)]
  rfl

/-- Witness for C9 at a text with one form feed. -/
theorem C9_formfeed_clears_witness :
    '\x0c' ∈ toL "before\x0cafter" ∧
    append_text_to_shell sampleState (toL "before\x0cafter") false false
      = append_text_to_shell { sampleState with buffer := [] }
          (afterLastFF (toL "before\x0cafter")) false false :=
  ⟨by decide,
   C9_formfeed_clears sampleState (toL "before\x0cafter") false false (by decide)⟩

/-- Counterexample to **C7** as stated: not every public operation keeps the
cached resolved style fresh.  From a consistent state (base format set,
code `31` applied), the public operation `set_base_format` with a different
base format leaves the cached format stale: it still resolves inherited
fields against the old base. -/
theorem C7_staleness_counterexample :
    ∃ h1 h2 : AnsiHandler,
      set_code (set_base_format freshHandler sampleBase) 31 = .ok h1 ∧
      consistent h1 = true ∧
      applyOp h1 (.setBaseFormat sampleBase2) = .ok h2 ∧
      consistent h2 = false :=
  ⟨_, _, rfl, by decide, rfl, by decide⟩

/-- **C7** amended: after every decode call and after every `set_code` and
`set_light_background` the cached resolved style returned by `get_format` is
consistent with the current attribute state and base format (never stale);
`set_base_format` is excluded, since it can leave the cache stale until the
next code application, and the mode defaults set by `set_light_background` do
not enter the Qt resolution at all. -/
theorem C7_consistency_amended :
    (∀ (st st' : ConsoleState) (text : PyStr) (runs : List Run),
        consistent st.handler = true →
        ansiLoop st text = .ok (runs, st') →
        consistent st'.handler = true)
    ∧ (∀ (h h' : AnsiHandler) (c : Int),
        set_code h c = .ok h' → consistent h' = true)
    ∧ (∀ (h : AnsiHandler) (b : Bool),
        consistent h = true → consistent (set_light_background h b) = true) :=
  ⟨fun _ _ _ _ hc ha => ansiLoopAux_consistent _ _ _ _ _ hc ha,
   fun _ _ _ hs => set_code_consistent hs,
   fun _ b hc => set_light_background_consistent b hc⟩

/-- Witness for the amended C7 at a concrete decode call, a concrete
`set_code` and a concrete `set_light_background`. -/
theorem C7_consistency_amended_witness :
    (ansiLoop sampleState (toL "\x1b[31mX")
        = .ok (sampleDecodeResult.1, sampleDecodeResult.2) ∧
      consistent sampleDecodeResult.2.handler = true)
    ∧ (∃ h1, set_code (set_base_format freshHandler sampleBase) 31 = .ok h1 ∧
        consistent h1 = true)
    ∧ consistent (set_light_background (set_base_format freshHandler sampleBase) true)
        = true :=
  ⟨⟨by decide,
    C7_consistency_amended.1 sampleState sampleDecodeResult.2 (toL "\x1b[31mX")
      sampleDecodeResult.1 (by decide) (by decide)⟩,
   ⟨sampleDecodeResult.2.handler, by decide,
    C7_consistency_amended.2.1 (set_base_format freshHandler sampleBase)
      sampleDecodeResult.2.handler 31 (by decide)⟩,
   C7_consistency_amended.2.2 _ true (by decide)⟩

/-- **C10**: invoking `set_style` on a fresh handler, before `set_base_format`
has been called, fails the assertion `self.base_format is not None`; and on
every reachable handler state whose base format has been set, the assertion
branch is unreachable and `set_style` produces a concrete resolved format
(cached into `current_format`). -/
theorem C10_set_style_assertion :
    set_style freshHandler = .error .assertionError
    ∧ ∀ (h : AnsiHandler) (b : CharFormat), Reaches h → h.base_format = some b →
        ∃ f, set_style h = .ok { h with current_format := some f } := by
  constructor
  · rfl
  · intro h b hr hb
    exact set_style_ok_of_base (reaches_wf hr) hb

/-- Witness for C10: the assertion failure on the fresh handler, and a
successful resolution right after `set_base_format`. -/
theorem C10_set_style_assertion_witness :
    set_style freshHandler = .error .assertionError ∧
    ∃ f, set_style (set_base_format freshHandler sampleBase)
        = .ok { set_base_format freshHandler sampleBase with current_format := some f } :=
  ⟨C10_set_style_assertion.1,
   C10_set_style_assertion.2 _ sampleBase (Reaches.base sampleBase Reaches.init) rfl⟩

/-- Counterexample to **C8** as stated: `COLOR_PATTERN` does not match
exactly the spec's wire grammar — the string `"\x1b[zm"`, whose parameter
part `"z"` is not a semicolon-separated list of integers, is matched in
full by the recognizer but rejected by the grammar. -/
theorem C8_grammar_counterexample :
    matchHere (toL "\x1b[zm") = some (toL "z", []) ∧
    specSeq (toL "\x1b[zm") = false := by
  decide

theorem pySplitAux_single (c : Char) :
    ∀ (fuel : Nat) (s : PyStr), s.length ≤ fuel →
      pySplitAux [c] fuel s = splitChar c s := by
  intro fuel
  induction fuel with
  | zero =>
    intro s hs
    have : s = [] := List.length_eq_zero.mp (Nat.le_zero.mp hs)
    subst this
    rfl
  | succ g ih =>
    intro s hs
    cases s with
    | nil => rfl
    | cons x xs =>
      rw [pySplitAux, splitChar]
      have hpre : [c].isPrefixOf (x :: xs) = (c == x) := by
        simp [List.isPrefixOf]
      by_cases hx : x = c
      · rw [if_pos ⟨by simp, by simp [hpre, hx]⟩, if_pos hx]
        simp only [List.length_singleton, Nat.sub_self, List.drop_zero]
        rw [ih xs (by simpa using Nat.lt_succ_iff.mp (Nat.lt_of_lt_of_le (Nat.lt_succ_of_le le_rfl) hs))]
      · rw [if_neg, if_neg hx]
        · rw [ih xs (by simp at hs; omega)]
        · intro hcon
          have := hcon.2
          rw [hpre] at this
          simp at this
          exact hx this.symm

theorem pySplit_single (c : Char) (s : PyStr) : pySplit [c] s = splitChar c s :=
  pySplitAux_single c s.length s le_rfl

theorem splitChar_ne_nil (c : Char) (s : PyStr) : splitChar c s ≠ [] := by
  cases s with
  | nil => simp [splitChar]
  | cons x xs =>
    rw [splitChar]
    split
    · simp
    · split
      · simp
      · simp

theorem splitChar_not_mem {c : Char} {s : PyStr} :
    ∀ p ∈ splitChar c s, c ∉ p := by
  induction s with
  | nil =>
    intro p hp
    rw [splitChar] at hp
    simp at hp
    simp [hp]
  | cons x xs ih =>
    intro p hp
    rw [splitChar] at hp
    split at hp
    · rcases List.mem_cons.mp hp with rfl | hp
      · simp
      · exact ih p hp
    · rename_i hx
      cases hsp : splitChar c xs with
      | nil => exact absurd hsp (splitChar_ne_nil c xs)
      | cons q qs =>
        rw [hsp] at hp
        have hqmem : q ∈ splitChar c xs := by
          rw [hsp]
          exact List.mem_cons_self q qs
        rcases List.mem_cons.mp hp with rfl | hp
        · intro hmem
          rcases List.mem_cons.mp hmem with rfl | hmem
          · exact hx rfl
          · exact ih q hqmem hmem
        · have hpmem : p ∈ splitChar c xs := by
            rw [hsp]
            exact List.mem_cons_of_mem q hp
          exact ih p hpmem

theorem splitChar_append_cons (c : Char) (a b : PyStr) :
    splitChar c (a ++ c :: b) = splitChar c a ++ splitChar c b := by
  induction a with
  | nil =>
    rw [List.nil_append]
    simp [splitChar]
  | cons x a ih =>
    by_cases hx : x = c
    · rw [List.cons_append, splitChar, if_pos hx, ih,
        show splitChar c (x :: a) = [] :: splitChar c a by rw [splitChar, if_pos hx]]
      rfl
    · rw [List.cons_append, splitChar, if_neg hx, ih]
      rw [show splitChar c (x :: a) = _ from rfl, splitChar, if_neg hx]
      cases hsp : splitChar c a with
      | nil => exact absurd hsp (splitChar_ne_nil c a)
      | cons q qs => rfl

theorem splitChar_of_not_mem {c : Char} {s : PyStr} (h : c ∉ s) :
    splitChar c s = [s] := by
  induction s with
  | nil => rfl
  | cons x xs ih =>
    have hx : ¬ x = c := by
      intro he
      apply h
      rw [he]
      exact List.mem_cons_self c xs
    rw [splitChar, if_neg hx, ih (fun hmem => h (List.mem_cons_of_mem x hmem))]

theorem pyJoin_cons_cons (sep p q : PyStr) (qs : List PyStr) :
    pyJoin sep (p :: q :: qs) = p ++ sep ++ pyJoin sep (q :: qs) := rfl

theorem splitChar_join_id {c : Char} {parts : List PyStr}
    (hne : parts ≠ []) (hfree : ∀ p ∈ parts, c ∉ p) :
    splitChar c (pyJoin [c] parts) = parts := by
  induction parts with
  | nil => exact absurd rfl hne
  | cons p ps ih =>
    cases ps with
    | nil =>
      rw [pyJoin, splitChar_of_not_mem (hfree p (List.mem_cons_self p []))]
    | cons q qs =>
      rw [pyJoin_cons_cons, List.append_assoc, List.singleton_append, splitChar_append_cons,
        splitChar_of_not_mem (hfree p (List.mem_cons_self p _)),
        ih (fun hcon => List.noConfusion hcon) (fun r hr => hfree r (List.mem_cons_of_mem p hr))]
      rfl

theorem length_splitChar_join (c : Char) (parts : List PyStr) (hne : parts ≠ []) :
    parts.length ≤ (splitChar c (pyJoin [c] parts)).length := by
  induction parts with
  | nil => exact absurd rfl hne
  | cons p ps ih =>
    cases ps with
    | nil =>
      have := splitChar_ne_nil c (pyJoin [c] [p])
      cases hsp : splitChar c (pyJoin [c] [p]) with
      | nil => exact absurd hsp this
      | cons q qs => simp
    | cons q qs =>
      rw [pyJoin_cons_cons, List.append_assoc, List.singleton_append, splitChar_append_cons]
      have h1 := splitChar_ne_nil c p
      have h2 := ih (fun hcon => List.noConfusion hcon)
      rw [List.length_append]
      have : 1 ≤ (splitChar c p).length := by
        cases hsp : splitChar c p with
        | nil => exact absurd hsp h1
        | cons r rs => simp
      simp only [List.length_cons] at h2 ⊢
      omega

theorem dropWhile_append_all {p : Char → Bool} {xs : PyStr} (ys : PyStr)
    (h : ∀ a ∈ xs, p a) :
    (xs ++ ys).dropWhile p = ys.dropWhile p := by
  induction xs with
  | nil => rfl
  | cons x xs ih =>
    rw [List.cons_append, List.dropWhile_cons,
      if_pos (h x (List.mem_cons_self x xs))]
    exact ih (fun a ha => h a (List.mem_cons_of_mem x ha))

theorem dropWhile_idem {p : Char → Bool} {l : PyStr} :
    (l.dropWhile p).dropWhile p = l.dropWhile p := by
  induction l with
  | nil => rfl
  | cons x xs ih =>
    rw [List.dropWhile_cons]
    cases hp : p x with
    | true => simpa using ih
    | false => simp [List.dropWhile_cons, hp]

theorem pyLstrip_replicate_append (k : Nat) (s : PyStr) :
    pyLstrip (List.replicate k ' ' ++ s) = pyLstrip s :=
  dropWhile_append_all s (fun a ha => by
    rw [List.eq_of_mem_replicate ha]; rfl)

theorem pyStrip_replicate (n : Nat) : pyStrip (List.replicate n ' ') = [] := by
  unfold pyStrip
  rw [show pyLstrip (List.replicate n ' ') = pyLstrip (List.replicate n ' ' ++ []) by
      rw [List.append_nil],
    pyLstrip_replicate_append]
  rfl

theorem pyStrip_nil : pyStrip [] = [] := rfl

theorem pyIndent_eq_takeWhile (l : PyStr) :
    pyIndent l = (l.takeWhile isPySpace).length := by
  have htd : l.takeWhile isPySpace ++ l.dropWhile isPySpace = l :=
    List.takeWhile_append_dropWhile isPySpace l
  have hlen := congrArg List.length htd
  rw [List.length_append] at hlen
  unfold pyIndent pyLstrip
  omega

theorem pyLstrip_drop {l : PyStr} {k : Nat} (h : k ≤ pyIndent l) :
    pyLstrip (l.drop k) = pyLstrip l := by
  rw [pyIndent_eq_takeWhile] at h
  have htd : l.takeWhile isPySpace ++ l.dropWhile isPySpace = l :=
    List.takeWhile_append_dropWhile isPySpace l
  conv_lhs => rw [← htd]
  rw [List.drop_append_eq_append_drop, Nat.sub_eq_zero_of_le h, List.drop_zero]
  unfold pyLstrip
  rw [dropWhile_append_all _ (fun a ha =>
    List.mem_takeWhile_imp ((List.drop_subset _ _) ha))]
  exact dropWhile_idem

theorem splitChar_replicate_append {c : Char} (hc : c ≠ ' ') (k : Nat) (s : PyStr) :
    splitChar c (List.replicate k ' ' ++ s)
      = (List.replicate k ' ' ++ (splitChar c s).headD []) :: (splitChar c s).tail := by
  induction k with
  | zero =>
    rw [List.replicate_zero, List.nil_append, List.nil_append]
    cases hsp : splitChar c s with
    | nil => exact absurd hsp (splitChar_ne_nil c s)
    | cons p ps => rfl
  | succ k ih =>
    rw [List.replicate_succ, List.cons_append, splitChar,
      if_neg (fun he => hc he.symm), ih]
    rfl

theorem minScan_cons_nonblank {line : PyStr} (rest : List PyStr)
    (h : pyStrip line ≠ []) :
    minScan (line :: rest) = (line :: (minScan rest).1,
      min (pyIndent line) (minScan rest).2.1, pyIndent line) := by
  rcases hms : minScan rest with ⟨r, m, cur⟩
  rw [minScan, hms]
  simp only [if_pos h]

theorem minScan_cons_blank {line : PyStr} (rest : List PyStr)
    (h : ¬ pyStrip line ≠ []) :
    minScan (line :: rest) = (List.replicate (minScan rest).2.2 ' ' :: (minScan rest).1,
      (minScan rest).2.1, (minScan rest).2.2) := by
  rcases hms : minScan rest with ⟨r, m, cur⟩
  rw [minScan, hms]
  simp only [if_neg h]

theorem minScan_length (l : List PyStr) : (minScan l).1.length = l.length := by
  induction l with
  | nil => rfl
  | cons line rest ih =>
    by_cases h : pyStrip line ≠ []
    · rw [minScan_cons_nonblank rest h]
      simp only [List.length_cons, ih]
    · rw [minScan_cons_blank rest h]
      simp only [List.length_cons, ih]

theorem minScan_idem (l : List PyStr) : minScan ((minScan l).1) = minScan l := by
  induction l with
  | nil => rfl
  | cons line rest ih =>
    by_cases h : pyStrip line ≠ []
    · rw [minScan_cons_nonblank rest h]
      show minScan (line :: (minScan rest).1) = _
      rw [minScan_cons_nonblank _ h, ih]
    · rw [minScan_cons_blank rest h]
      show minScan (List.replicate (minScan rest).2.2 ' ' :: (minScan rest).1) = _
      rw [minScan_cons_blank _ (by simp [pyStrip_replicate]), ih]

theorem appendToLast_length (acc : List PyStr) (ls : PyStr) :
    (appendToLast acc ls).length = acc.length := by
  unfold appendToLast
  cases hl : acc.getLast? with
  | none => rfl
  | some last =>
    have hne : acc ≠ [] := by
      intro he
      rw [he] at hl
      cases hl
    rw [List.length_append, List.length_dropLast, List.length_singleton]
    have : 0 < acc.length := List.length_pos.mpr hne
    omega

theorem scanStep_length (ls : PyStr) (st : List PyStr × Bool × List PyStr)
    (line : PyStr) : (scanStep ls st line).1.length = st.1.length + 1 := by
  rcases st with ⟨acc, maybe, ne⟩
  simp only [scanStep]
  by_cases h0 : pyIndent line = 0
  · rw [if_pos h0]
    by_cases hmn : maybe ∧ varnameMatch line ∉ ne
    · simp only [if_pos hmn]
      split
      · split
        · simp [appendToLast_length]
        · split
          · simp [appendToLast_length]
          · split
            · simp [appendToLast_length]
            · simp [appendToLast_length]
      · simp [appendToLast_length]
    · simp only [if_neg hmn]
      split
      · split
        · simp
        · split
          · simp
          · split
            · simp
            · simp
      · simp
  · rw [if_neg h0]
    simp

theorem foldl_scanStep_length (ls : PyStr) (l : List PyStr) :
    ∀ (st : List PyStr × Bool × List PyStr),
      (l.foldl (scanStep ls) st).1.length = st.1.length + l.length := by
  induction l with
  | nil => intro st; rfl
  | cons line rest ih =>
    intro st
    rw [List.foldl_cons, ih, scanStep_length]
    simp only [List.length_cons]
    omega

theorem finishScan_length (ls : PyStr) (st : List PyStr × Bool × List PyStr) :
    st.1.length ≤ (finishScan ls st).length := by
  rcases st with ⟨lines, maybe, ne⟩
  simp only [finishScan]
  by_cases hm : maybe = true
  · rw [if_pos hm]
    split
    · rw [appendToLast_length]
    · simp
  · rw [if_neg hm]

theorem dropWhile_eq_nil_all {p : Char → Bool} {l : PyStr}
    (h : l.dropWhile p = []) : ∀ a ∈ l, p a := by
  induction l with
  | nil => intro a ha; cases ha
  | cons x xs ih =>
    rw [List.dropWhile_cons] at h
    split at h
    · intro a ha
      rcases List.mem_cons.mp ha with rfl | ha
      · assumption
      · exact ih h a ha
    · cases h

theorem dropWhile_head_not {p : Char → Bool} {l cs : PyStr} {ch : Char}
    (h : l.dropWhile p = ch :: cs) : p ch = false := by
  induction l with
  | nil => cases h
  | cons x xs ih =>
    rw [List.dropWhile_cons] at h
    split at h
    · exact ih h
    · cases h
      rename_i hp
      exact Bool.not_eq_true _ |>.mp hp

theorem pyStrip_ne_nil_of_lstrip {l : PyStr} {ch : Char} {cs : PyStr}
    (h : pyLstrip l = ch :: cs) : pyStrip l ≠ [] := by
  intro hnil
  unfold pyStrip pyRstrip at hnil
  rw [h] at hnil
  have : (ch :: cs).reverse.dropWhile isPySpace = [] := by
    cases hdw : (ch :: cs).reverse.dropWhile isPySpace with
    | nil => rfl
    | cons a b =>
      rw [hdw] at hnil
      simp at hnil
  have hall := dropWhile_eq_nil_all this
  have hch : isPySpace ch = true := hall ch (by simp)
  have hhead := dropWhile_head_not h
  rw [hhead] at hch
  cases hch

theorem padText_spaces (text : PyStr) (oi : Nat) (ls : PyStr) :
    ∃ k, padText text oi ls = List.replicate k ' ' ++ text := by
  simp only [padText]
  split
  · exact ⟨_, rfl⟩
  · exact ⟨0, by rw [List.replicate_zero, List.nil_append]⟩

theorem padText_zero (text : PyStr) (ls : PyStr) : padText text 0 ls = text := by
  simp only [padText]
  split
  · have hz : (((0 : Nat) : Int) - (pyIndent ((pySplit ls text).headD []) : Int)).toNat
        = 0 := by omega
    rw [hz, List.replicate_zero, List.nil_append]
  · rfl

theorem stripLeading_good {l : PyStr} (rest : List PyStr) {ch : Char} {cs : PyStr}
    (hl : pyLstrip l = ch :: cs) (hch : ¬ ch = '#') :
    stripLeading (l :: rest) = .ok (l :: rest) := by
  rw [stripLeading]
  rw [hl]
  simp only [if_neg hch]
  rfl

theorem dedentLines_good {c : Char} {text : PyStr} {oi : Nat}
    {h0 : List Char} {t0s : List PyStr} {ch : Char} {cs : PyStr}
    (hc : c ≠ ' ')
    (hL : splitChar c text = h0 :: t0s)
    (hstrip : pyLstrip h0 = ch :: cs) :
    ∃ H2 R2, dedentLines text oi [c] = H2 :: R2 ∧
      pyLstrip H2 = ch :: cs ∧ R2.length = t0s.length := by
  obtain ⟨k, hpad⟩ := padText_spaces text oi [c]
  have hlines1 : pySplit [c] (padText text oi [c])
      = (List.replicate k ' ' ++ h0) :: t0s := by
    rw [pySplit_single, hpad, splitChar_replicate_append hc, hL]
    rfl
  have hHlstrip : pyLstrip (List.replicate k ' ' ++ h0) = ch :: cs := by
    rw [pyLstrip_replicate_append, hstrip]
  have hHnonblank : pyStrip (List.replicate k ' ' ++ h0) ≠ [] :=
    pyStrip_ne_nil_of_lstrip hHlstrip
  have hms := minScan_cons_nonblank t0s hHnonblank
  simp only [dedentLines]
  rw [hlines1, hms]
  split
  · refine ⟨(List.replicate k ' ' ++ h0).drop
        (min (pyIndent (List.replicate k ' ' ++ h0)) (minScan t0s).2.1),
      ((minScan t0s).1).map (·.drop
        (min (pyIndent (List.replicate k ' ' ++ h0)) (minScan t0s).2.1)),
      by rw [List.map_cons], ?_, ?_⟩
    · rw [pyLstrip_drop (Nat.min_le_left _ _), hHlstrip]
    · rw [List.length_map, minScan_length]
  · exact ⟨_, _, rfl, hHlstrip, minScan_length t0s⟩

/-- **C4** amended: for every non-empty input whose first line is neither
blank nor comment-only, with a single non-space character as line separator,
the transform succeeds and the output has at least as many lines as the
input; in general the line count decreases exactly by the dropped leading
blank/comment lines (see the counterexample). -/
theorem C4_line_count_amended (c : Char) (text : PyStr) (oi : Nat) (hc : c ≠ ' ')
    (hne : text ≠ []) (hfirst : goodFirstLine text [c] = true) :
    ∃ out, reindent text oi [c] = .ok (some out) ∧
      lineCount [c] text ≤ lineCount [c] out := by
  cases hL : splitChar c text with
  | nil => exact absurd hL (splitChar_ne_nil c text)
  | cons h0 t0s =>
  rw [goodFirstLine, pySplit_single, hL] at hfirst
  simp only [List.headD_cons] at hfirst
  cases hstrip : pyLstrip h0 with
  | nil => rw [hstrip] at hfirst; cases hfirst
  | cons ch cs =>
  rw [hstrip] at hfirst
  have hch : ¬ ch = '#' := by simpa using hfirst
  obtain ⟨H2, R2, hdl, hH2, hR2len⟩ :=
    @dedentLines_good c text oi h0 t0s ch cs hc hL hstrip
  rw [reindent, if_neg hne, hdl, stripLeading_good R2 hH2 hch, okBind]
  refine ⟨_, rfl, ?_⟩
  have hst := foldl_scanStep_length [c] (H2 :: R2) ([], false, [])
  have hfin := finishScan_length [c] ((H2 :: R2).foldl (scanStep [c]) ([], false, []))
  have hlen6 : t0s.length + 1 ≤
      (finishScan [c] ((H2 :: R2).foldl (scanStep [c]) ([], false, []))).length := by
    rw [hst] at hfin
    simp only [List.length_cons, List.length_nil] at hfin ⊢
    omega
  have hne6 : finishScan [c] ((H2 :: R2).foldl (scanStep [c]) ([], false, [])) ≠ [] := by
    intro hnil
    rw [hnil] at hlen6
    simp at hlen6
  have hcount := length_splitChar_join c
    (finishScan [c] ((H2 :: R2).foldl (scanStep [c]) ([], false, []))) hne6
  unfold lineCount
  rw [pySplit_single, pySplit_single, hL]
  simp only [List.length_cons]
  omega

theorem minScan_mem {l : List PyStr} :
    ∀ p ∈ (minScan l).1, p ∈ l ∨ ∃ n, p = List.replicate n ' ' := by
  induction l with
  | nil => intro p hp; cases hp
  | cons line rest ih =>
    intro p hp
    by_cases h : pyStrip line ≠ []
    · rw [minScan_cons_nonblank rest h] at hp
      rcases List.mem_cons.mp hp with rfl | hp
      · exact Or.inl (List.mem_cons_self _ _)
      · rcases ih p hp with hmem | hrep
        · exact Or.inl (List.mem_cons_of_mem _ hmem)
        · exact Or.inr hrep
    · rw [minScan_cons_blank rest h] at hp
      rcases List.mem_cons.mp hp with rfl | hp
      · exact Or.inr ⟨_, rfl⟩
      · rcases ih p hp with hmem | hrep
        · exact Or.inl (List.mem_cons_of_mem _ hmem)
        · exact Or.inr hrep

theorem pyJoin_cons_ne_nil {c : Char} {h0 : PyStr} {R : List PyStr}
    (hh : h0 ≠ []) : pyJoin [c] (h0 :: R) ≠ [] := by
  cases R with
  | nil => exact hh
  | cons q qs =>
    rw [pyJoin_cons_cons]
    simp

theorem selfTerminated_ok {text : PyStr} {oi : Nat} {ls : PyStr} {lines : List PyStr}
    (h : stripLeading (dedentLines text oi ls) = .ok lines) :
    selfTerminated text oi ls
      = (decide ((lines.foldl (scanStep ls) ([], false, [])).1 = lines)
         && !(lines.foldl (scanStep ls) ([], false, [])).2.1) := by
  rw [selfTerminated, h]

/-- **C5** amended: the transform is idempotent on already-minimally-indented
(computed common indent 0), already-terminated (keyword scan makes no change)
input that additionally has no leading blank or comment line, with a
single non-space character as line separator and original indent 0: such
input is transformed to a fixed point of the transform. -/
theorem C5_idempotence_amended (c : Char) (x : PyStr) (hc : c ≠ ' ')
    (hfirst : goodFirstLine x [c] = true)
    (hmin : minimallyIndented x 0 [c] = true)
    (hterm : selfTerminated x 0 [c] = true) :
    ∃ y, reindent x 0 [c] = .ok (some y) ∧ reindent y 0 [c] = .ok (some y) := by
  have hne : x ≠ [] := by
    intro he
    subst he
    rw [show goodFirstLine [] [c] = false from rfl] at hfirst
    cases hfirst
  cases hL : splitChar c x with
  | nil => exact absurd hL (splitChar_ne_nil c x)
  | cons h0 t0s =>
  rw [goodFirstLine, pySplit_single, hL] at hfirst
  simp only [List.headD_cons] at hfirst
  cases hstrip : pyLstrip h0 with
  | nil => rw [hstrip] at hfirst; cases hfirst
  | cons ch cs =>
  rw [hstrip] at hfirst
  have hch : ¬ ch = '#' := by simpa using hfirst
  have h0nonblank : pyStrip h0 ≠ [] := pyStrip_ne_nil_of_lstrip hstrip
  have hms := minScan_cons_nonblank t0s h0nonblank
  -- the computed minimum is zero
  rw [minimallyIndented, padText_zero, pySplit_single, hL] at hmin
  rw [hms] at hmin
  simp only [decide_eq_true_eq] at hmin
  -- the dedent pass returns the rewritten lines unchanged
  have hdl : dedentLines x 0 [c] = h0 :: (minScan t0s).1 := by
    simp only [dedentLines]
    rw [padText_zero, pySplit_single, hL, hms]
    rw [if_neg (fun hcon => hcon hmin)]
  have hstripL : stripLeading (dedentLines x 0 [c])
      = .ok (h0 :: (minScan t0s).1) := by
    rw [hdl, stripLeading_good _ hstrip hch]
  -- the keyword scan is a no-op
  rw [selfTerminated_ok hstripL] at hterm
  rcases hfold : (h0 :: (minScan t0s).1).foldl (scanStep [c]) ([], false, [])
    with ⟨stl, stm, stn⟩
  rw [hfold] at hterm
  simp only [Bool.and_eq_true, decide_eq_true_eq, Bool.not_eq_true'] at hterm
  obtain ⟨hstl, hstm⟩ := hterm
  have hfin : finishScan [c] (stl, stm, stn) = h0 :: (minScan t0s).1 := by
    simp only [finishScan]
    rw [hstm]
    simp only [if_neg (by simp : ¬ (false = true))]
    exact hstl
  -- first pass output
  have hpass1 : reindent x 0 [c]
      = .ok (some (pyJoin [c] (h0 :: (minScan t0s).1))) := by
    rw [reindent, if_neg hne, hstripL, okBind, hfold, hfin]
  refine ⟨pyJoin [c] (h0 :: (minScan t0s).1), hpass1, ?_⟩
  -- second pass
  have hyne : pyJoin [c] (h0 :: (minScan t0s).1) ≠ [] :=
    pyJoin_cons_ne_nil (by intro he; rw [he] at hstrip; cases hstrip)
  have hfree : ∀ p ∈ h0 :: (minScan t0s).1, c ∉ p := by
    intro p hp
    rcases List.mem_cons.mp hp with hpe | hp
    · rw [hpe]
      apply splitChar_not_mem
      rw [hL]
      exact List.mem_cons_self h0 t0s
    · rcases minScan_mem p hp with hmem | ⟨n, hrep⟩
      · apply splitChar_not_mem
        rw [hL]
        exact List.mem_cons_of_mem h0 hmem
      · rw [hrep]
        intro hcmem
        exact hc (List.eq_of_mem_replicate hcmem)
  have hsplity : splitChar c (pyJoin [c] (h0 :: (minScan t0s).1))
      = h0 :: (minScan t0s).1 :=
    splitChar_join_id (fun hcon => List.noConfusion hcon) hfree
  have hms2 : minScan (h0 :: (minScan t0s).1) = minScan (h0 :: t0s) := by
    have := minScan_idem (h0 :: t0s)
    rw [hms] at this ⊢
    exact this
  have hdl2 : dedentLines (pyJoin [c] (h0 :: (minScan t0s).1)) 0 [c]
      = h0 :: (minScan t0s).1 := by
    simp only [dedentLines]
    rw [padText_zero, pySplit_single, hsplity, hms2, hms]
    rw [if_neg (fun hcon => hcon hmin)]
  have hstripL2 : stripLeading (dedentLines (pyJoin [c] (h0 :: (minScan t0s).1)) 0 [c])
      = .ok (h0 :: (minScan t0s).1) := by
    rw [hdl2, stripLeading_good _ hstrip hch]
  rw [reindent, if_neg hyne, hstripL2, okBind, hfold, hfin]

/-- Witness for the amended C4 at a concrete two-line input. -/
theorem C4_line_count_amended_witness :
    ∃ out, reindent (toL "a = 1\nb = 2") 0 ['\n'] = .ok (some out) ∧
      lineCount ['\n'] (toL "a = 1\nb = 2") ≤ lineCount ['\n'] out :=
  C4_line_count_amended '\n' (toL "a = 1\nb = 2") 0 (by decide) (by decide)
    (by decide)

/-- Witness for the amended C5 at a concrete already-clean input. -/
theorem C5_idempotence_amended_witness :
    ∃ y, reindent (toL "a = 1\n") 0 ['\n'] = .ok (some y) ∧
      reindent y 0 ['\n'] = .ok (some y) :=
  C5_idempotence_amended '\n' (toL "a = 1\n") (by decide) (by decide) (by decide)
    (by decide)

end Spyder
